import Mathlib

/-!
# The bottom-line editor of `prog.cpp`

A shallow embedding of `App::WorkBuffer` (the width-aware input line), of the
part of `App::Terminal` it writes through, and of `App::on_char` / `App::loop`.

Modelling conventions.

* A `char` is the value of `static_cast<unsigned char>(ch)`, a `Nat`; a
  `std::string` is the list of its bytes.
* `int` fields live in `Int`.  The two counters that `++` advances without any
  test, `input_count` and `wait_count`, wrap as a 32-bit two's complement
  `int` does in the compiled program (`wrap_int`).  The width arithmetic of
  `commit_char` and `delete_char` is exact: it stays far inside the `int`
  range on any line a terminal can show.
* Everything written to the output descriptor is appended to `Terminal.out`.
  `App::term` and the object behind `WorkBuffer::term` are one object; the
  model stores it once, inside the work buffer.
* The C library services (`MB_CUR_MAX`, `mbtowc`, `wcwidth`) and the termcap
  services (`tputs`, `tgoto`) are parameters.  `mbtowc` keeps a hidden shift
  state; the model threads it through `WorkBuffer.mbstate`, `0` being the
  initial state that `mbtowc(NULL, NULL, 0)` restores.
-/

namespace TtyView

/-! ## External services -/

/-- The locale-dependent C library services used by `put_char`.
`mbtowc st buf` is the call `mbtowc(&wc, buf.data(), buf.size())` made in shift
state `st`; it yields the returned `int`, the value stored in `wc`, and the
shift state afterwards. -/
structure Locale where
  MB_CUR_MAX : Nat
  mbtowc : Nat → List Nat → Int × Int × Nat
  wcwidth : Int → Int

/-- The termcap services: `tputs cap n` is the byte sequence that
`tputs(cap, n, write_char)` hands to `write_char`, `tgoto cap p1 p2` the
expanded capability string. -/
structure Termcap where
  tputs : List Nat → Int → List Nat
  tgoto : List Nat → Int → Int → List Nat

/-! ## Small helpers for `std::ostringstream` and string literals -/

/-- Bytes of an ASCII string literal. -/
def bytes (s : String) : List Nat := s.toList.map Char.toNat

/-- The value a 32-bit two's complement `int` holds after an arithmetic result
`n`: `n` itself inside `-2147483648 .. 2147483647`, wrapped around outside. -/
def wrap_int (n : Int) : Int := (n + 2147483648) % 4294967296 - 2147483648

/-- Output of `ost << n` for an `int` in the default (decimal) format. -/
def fmt_dec (n : Int) : List Nat :=
  if n < 0 then 45 :: (Nat.toDigits 10 n.natAbs).map Char.toNat
  else (Nat.toDigits 10 n.toNat).map Char.toNat

/-- Output of `ost << std::hex << std::setw(2) << std::setfill('0') << n` for a
non-negative `int`: lowercase hexadecimal, padded on the left to two
characters. -/
def fmt_hex2 (n : Nat) : List Nat :=
  (List.leftpad 2 (Char.ofNat 48) (Nat.toDigits 16 n)).map Char.toNat

/-! ## `App::Terminal` -/

/-- The fields of `App::Terminal` that the editor reads, plus the bytes
written to `out_fd` so far. -/
structure Terminal where
  cm : List Nat
  sf : List Nat
  cs : List Nat
  cl : List Nat
  cr : List Nat
  ce : List Nat
  scr_lines : Int
  scr_columns : Int
  out : List Nat
  deriving DecidableEq

namespace Terminal

def get_screen_lines (t : Terminal) : Int := t.scr_lines

def get_screen_columns (t : Terminal) : Int := t.scr_columns

/-- Both overloads of `put_text`: one `write` of the given bytes. -/
def put_text (t : Terminal) (s : List Nat) : Terminal :=
  { t with out := t.out ++ s }

def cap_write (tc : Termcap) (t : Terminal) (cap : List Nat) (n : Int) : Terminal :=
  { t with out := t.out ++ tc.tputs cap n }

def cap_write_param (tc : Termcap) (t : Terminal) (cap : List Nat) (n p1 p2 : Int) :
    Terminal :=
  { t with out := t.out ++ tc.tputs (tc.tgoto cap p1 p2) n }

def carriage_return (tc : Termcap) (t : Terminal) : Terminal :=
  cap_write tc t t.cr 1

def clear_to_end_of_line (tc : Termcap) (t : Terminal) : Terminal :=
  cap_write tc t t.ce 1

def move_cursor (tc : Termcap) (t : Terminal) (row col : Int) : Terminal :=
  cap_write_param tc t t.cm 1 col row

def scroll_forward (tc : Termcap) (t : Terminal) : Terminal :=
  cap_write tc t t.sf 1

def change_scroll_region (tc : Termcap) (t : Terminal) (first last : Int) : Terminal :=
  cap_write_param tc t t.cs 1 last first

end Terminal

/-! ## `App::WorkBuffer` -/

/-- The fields of `App::WorkBuffer`; `term` is the terminal behind the
`Terminal*`, `mbstate` the shift state of `mbtowc`. -/
structure WorkBuffer where
  term : Terminal
  input_count : Int
  width : Int
  prompt : List Nat
  prompt_width : Int
  chars : List (List Nat)
  widths : List Int
  in_buf : List Nat
  mbstate : Nat
  deriving DecidableEq

namespace WorkBuffer

def get_width (s : WorkBuffer) : Int := s.width

/-- Method `clear_line` (lines 543-551). -/
def clear_line (s : WorkBuffer) : WorkBuffer :=
  { s with
    chars := []
    widths := []
    in_buf := []
    width := s.prompt_width
    term := s.term.put_text s.prompt }

/-- Method `reset` (lines 532-541). -/
def reset (s : WorkBuffer) : WorkBuffer :=
  let prompt := bytes "input." ++ fmt_dec s.input_count ++ bytes "> "
  clear_line { s with prompt := prompt, prompt_width := (prompt.length : Int) }

/-- Method `commit_char` (lines 611-621). -/
def commit_char (s : WorkBuffer) (char_text : List Nat) (width : Int) : WorkBuffer :=
  if s.width + width < s.term.get_screen_columns then
    { s with
      chars := s.chars ++ [char_text]
      widths := s.widths ++ [width]
      width := s.width + width
      term := s.term.put_text char_text }
  else s

/-- What one pass through the body of the `while` loop of `put_char` did. -/
inductive Iter where
  /-- Case `len > 0`: a glyph was handed to `commit_char` and its bytes erased. -/
  | decoded (s : WorkBuffer)
  /-- The buffer was rejected and holds `MB_CUR_MAX` bytes or more: the front
  byte was erased (`continue`). -/
  | dropped (s : WorkBuffer)
  /-- The buffer was rejected and is shorter than `MB_CUR_MAX`: `break`. -/
  | stopped (s : WorkBuffer)

/-- The body of the `while` loop of `put_char` (lines 578-595), run on a
non-empty `in_buf`.  `substr(0, len)` and `erase(0, len)` clamp at the end of
the string, as `take` and `drop` do. -/
def decode_iter (L : Locale) (s : WorkBuffer) : Iter :=
  let r := L.mbtowc s.mbstate s.in_buf
  let len := r.1
  let wc := r.2.1
  if 0 < len then
    let wid := L.wcwidth wc
    let s1 := commit_char { s with mbstate := r.2.2 } (s.in_buf.take len.toNat) wid
    Iter.decoded { s1 with in_buf := s1.in_buf.drop len.toNat }
  else
    let s1 := { s with mbstate := 0 }
    if L.MB_CUR_MAX ≤ s1.in_buf.length then
      Iter.dropped { s1 with in_buf := s1.in_buf.drop 1 }
    else
      Iter.stopped s1

/-- The `while( !in_buf.empty() )` loop of `put_char` with an iteration
budget; `none` means the budget ran out before the loop ended. -/
def decode_loop (L : Locale) : Nat → WorkBuffer → Option WorkBuffer
  | fuel, s =>
    if s.in_buf = [] then some s
    else
      match fuel with
      | 0 => none
      | fuel + 1 =>
        match decode_iter L s with
        | Iter.decoded s1 => decode_loop L fuel s1
        | Iter.dropped s1 => decode_loop L fuel s1
        | Iter.stopped s1 => some s1

/-- The glyph text synthesised for a control byte (lines 561-567). -/
def ctrl_text (n : Nat) : List Nat := [91] ++ fmt_hex2 n ++ [93]

/-- Method `put_char` (lines 554-597).  The loop budget is the length of `in_buf`
after the `push_back`. -/
def put_char (L : Locale) (s : WorkBuffer) (ch : Nat) : Option WorkBuffer :=
  if ch < 0x20 ∧ s.in_buf = [] then
    let text := ctrl_text ch
    let width : Int := (text.length : Int)
    some (commit_char s text width)
  else
    let s1 := { s with in_buf := s.in_buf ++ [ch] }
    decode_loop L s1.in_buf.length s1

/-- Method `put_enter` (lines 600-608). -/
def put_enter (s : WorkBuffer) : WorkBuffer :=
  let s1 := { s with term := s.term.put_text [10] }
  let s2 :=
    if s1.chars ≠ [] then { s1 with input_count := wrap_int (s1.input_count + 1) } else s1
  reset s2

/-- Function `string_pop_back` (lines 624-628), called on a non-empty string. -/
def string_pop_back (s : List Nat) : List Nat := s.dropLast

/-- Method `delete_char` (lines 631-652): the returned `int` and the state after.
`widths.back()` on an empty vector is undefined in the source; the model reads
`0` there (no state with `chars` non-empty and `widths` empty is reachable). -/
def delete_char (s : WorkBuffer) : Int × WorkBuffer :=
  if s.in_buf ≠ [] then
    (0, { s with in_buf := string_pop_back s.in_buf })
  else if s.chars = [] then
    (0, s)
  else
    let ret := s.widths.getLastD 0
    (ret, { s with
            chars := s.chars.dropLast
            widths := s.widths.dropLast
            width := s.width - ret })

end WorkBuffer

/-! ## `App` -/

/-- The fields of `App` that `on_char`, `log` and `loop` touch.  `out_fd` is
the descriptor the terminal writes to, so `write(out_fd, ...)` appends to
`wkbuf.term.out`. -/
structure App where
  wait_count : Int
  loop_cont : Bool
  wkbuf : WorkBuffer
  deriving DecidableEq

/-- The operating-system side of `on_char` and `loop`. -/
structure Sys where
  /-- Whether `tcsetattr(in_fd, TCSANOW, &tio_cur)` after `SIGCONT` returned `0`. -/
  tcsetattr_ok : Bool

/-- One round of `poll` + `read` as seen by `loop`. -/
inductive Event where
  | poll_error
  | timeout
  | read_error
  | eof
  | byte (ch : Nat)

namespace App

/-- A `write(out_fd, ...)` made by `App` itself. -/
def write_out (a : App) (s : List Nat) : App :=
  { a with wkbuf := { a.wkbuf with term := a.wkbuf.term.put_text s } }

def with_term (a : App) (t : Terminal) : App :=
  { a with wkbuf := { a.wkbuf with term := t } }

/-- Method `log` (lines 322-332). -/
def log (tc : Termcap) (a : App) (msg : List Nat) : App :=
  let scr_lines := a.wkbuf.term.get_screen_lines
  let t1 := a.wkbuf.term.change_scroll_region tc 0 (scr_lines - 2)
  let t2 := t1.move_cursor tc (scr_lines - 2) 0
  let t3 := t2.scroll_forward tc
  let t4 := t3.put_text msg
  let t5 := t4.change_scroll_region tc 0 (scr_lines - 1)
  let t6 := t5.move_cursor tc (scr_lines - 1) a.wkbuf.get_width
  a.with_term t6

/-- The `for` loop of the `^H`/`DEL` case: `del_width` times the three bytes
`"\x08 \x08"` (none when `del_width <= 0`). -/
def erase_cols (a : App) (del_width : Int) : App :=
  a.write_out (List.flatten (List.replicate del_width.toNat [8, 32, 8]))

/-- Method `on_char` (lines 335-398): the returned `bool` and the state after.
`none` is the one case in which the put_char loop budget runs out. -/
def on_char (L : Locale) (tc : Termcap) (sys : Sys) (a : App) (ch : Nat) :
    Option (Bool × App) :=
  if ch = 3 ∨ ch = 4 then
    some (true, { a.write_out [10] with loop_cont := false })
  else if ch = 8 ∨ ch = 0x7F then
    let r := a.wkbuf.delete_char
    some (true, erase_cols { a with wkbuf := r.2 } r.1)
  else if ch = 10 then
    some (true, { a with wkbuf := a.wkbuf.put_enter })
  else if ch = 21 then
    let t1 := a.wkbuf.term.carriage_return tc
    let t2 := t1.clear_to_end_of_line tc
    some (true, { a with wkbuf := ({ a.wkbuf with term := t2 }).clear_line })
  else if ch = 26 then
    if sys.tcsetattr_ok then some (true, a) else some (false, a)
  else
    (a.wkbuf.put_char L ch).map (fun w => (true, { a with wkbuf := w }))

/-- Method `loop` (lines 279-319) over the rounds of `poll`/`read` that the system
delivers: the returned `bool` and the final state.  `none`: the listed rounds
are used up and the loop is still waiting. -/
def loop (L : Locale) (tc : Termcap) (sys : Sys) : List Event → App → Option (Bool × App)
  | evs, a =>
    if a.loop_cont = false then some (true, a)
    else
      match evs with
      | [] => none
      | Event.poll_error :: _ => some (false, a)
      | Event.timeout :: rest =>
        let msg := bytes "waiting for input (" ++ fmt_dec a.wait_count ++ bytes ") ..."
        let a1 := log tc a msg
        loop L tc sys rest { a1 with wait_count := wrap_int (a1.wait_count + 1) }
      | Event.read_error :: _ => some (false, a)
      | Event.eof :: _ => some (true, a)
      | Event.byte ch :: rest =>
        match on_char L tc sys a ch with
        | none => none
        | some (ok, a1) => if ok = false then some (false, a1) else loop L tc sys rest a1

end App

/-! ## Sequences of editor calls -/

/-- One call of a public `WorkBuffer` method. -/
inductive Call where
  | put_char (ch : Nat)
  | delete_char
  | clear_line
  | put_enter
  | reset

/-- Whether the call is `put_char` or `delete_char`. -/
def Call.is_edit : Call → Bool
  | Call.put_char _ => true
  | Call.delete_char => true
  | _ => false

/-- The state after one call (`none`: the `put_char` loop budget ran out). -/
def call (L : Locale) (s : WorkBuffer) : Call → Option WorkBuffer
  | Call.put_char ch => s.put_char L ch
  | Call.delete_char => some s.delete_char.2
  | Call.clear_line => some s.clear_line
  | Call.put_enter => some s.put_enter
  | Call.reset => some s.reset

/-- The state after a sequence of calls, made in order. -/
def run_calls (L : Locale) : List Call → WorkBuffer → Option WorkBuffer
  | [], s => some s
  | c :: cs, s =>
    match call L s c with
    | none => none
    | some s1 => run_calls L cs s1

/-! ## Observers of the decode loop

These walk the loop exactly as `decode_loop` does and report what happened on
the way; they do not feed back into the state. -/

namespace WorkBuffer

/-- The state carried out of one loop iteration. -/
def Iter.state : Iter → WorkBuffer
  | Iter.decoded s => s
  | Iter.dropped s => s
  | Iter.stopped s => s

/-- The glyph that `commit_char s char_text width` appends, if it appends. -/
def commit_glyphs (s : WorkBuffer) (char_text : List Nat) (width : Int) :
    List (List Nat × Int) :=
  if s.width + width < s.term.get_screen_columns then [(char_text, width)] else []

/-- The glyph appended by the loop iteration run from `s`, if any. -/
def iter_glyphs (L : Locale) (s : WorkBuffer) : List (List Nat × Int) :=
  let r := L.mbtowc s.mbstate s.in_buf
  if 0 < r.1 then
    commit_glyphs { s with mbstate := r.2.2 } (s.in_buf.take r.1.toNat) (L.wcwidth r.2.1)
  else []

/-- The glyphs appended by `decode_loop L fuel s`, in order. -/
def decode_glyphs (L : Locale) : Nat → WorkBuffer → List (List Nat × Int)
  | fuel, s =>
    if s.in_buf = [] then []
    else
      match fuel with
      | 0 => []
      | fuel + 1 =>
        match decode_iter L s with
        | Iter.decoded s1 => iter_glyphs L s ++ decode_glyphs L fuel s1
        | Iter.dropped s1 => decode_glyphs L fuel s1
        | Iter.stopped _ => []

/-- The glyphs appended by `put_char L s ch`, in order. -/
def put_char_glyphs (L : Locale) (s : WorkBuffer) (ch : Nat) : List (List Nat × Int) :=
  if ch < 0x20 ∧ s.in_buf = [] then
    commit_glyphs s (ctrl_text ch) ((ctrl_text ch).length : Int)
  else
    let s1 := { s with in_buf := s.in_buf ++ [ch] }
    decode_glyphs L s1.in_buf.length s1

/-- The number of iterations of `decode_loop L fuel s` that took the
`erase(0, 1); continue;` branch. -/
def decode_drops (L : Locale) : Nat → WorkBuffer → Nat
  | fuel, s =>
    if s.in_buf = [] then 0
    else
      match fuel with
      | 0 => 0
      | fuel + 1 =>
        match decode_iter L s with
        | Iter.decoded s1 => decode_drops L fuel s1
        | Iter.dropped s1 => 1 + decode_drops L fuel s1
        | Iter.stopped _ => 0

/-- The number of bytes that `put_char L s ch` erases from the front of
`in_buf` through the `erase(0, 1); continue;` branch. -/
def put_char_drops (L : Locale) (s : WorkBuffer) (ch : Nat) : Nat :=
  if ch < 0x20 ∧ s.in_buf = [] then 0
  else
    let s1 := { s with in_buf := s.in_buf ++ [ch] }
    decode_drops L s1.in_buf.length s1

end WorkBuffer

/-! ## Predicates of the statements, sample locales and states -/

open WorkBuffer

/-- The width bookkeeping invariant. -/
def WidthInv (s : WorkBuffer) : Prop :=
  s.width = s.prompt_width + s.widths.sum ∧ s.chars.length = s.widths.length

/-- State `s1` is `s` with the glyphs `gs` appended: texts on `chars`, widths
on `widths`, their total on `width`, the texts written to the output. -/
def Grows (s s1 : WorkBuffer) (gs : List (List Nat × Int)) : Prop :=
  s1.chars = s.chars ++ gs.map Prod.fst ∧
  s1.widths = s.widths ++ gs.map Prod.snd ∧
  s1.width = s.width + (gs.map Prod.snd).sum ∧
  s1.term.out = s.term.out ++ (gs.map Prod.fst).flatten

/-- The line, cut after any number of glyphs, ends left of the last column. -/
def EdgeInv (s : WorkBuffer) : Prop :=
  WidthInv s ∧ ∀ n : Nat, s.prompt_width + (s.widths.take n).sum < s.term.scr_columns

/-- An ASCII letter, `A`..`Z` or `a`..`z`. -/
def is_letter (b : Nat) : Bool := (65 ≤ b && b ≤ 90) || (97 ≤ b && b ≤ 122)

/-- The locale decodes every ASCII letter, alone in the buffer, as one code
point of display width 1. -/
def DecodesLetters (L : Locale) : Prop :=
  ∀ (st b : Nat), is_letter b = true →
    (L.mbtowc st [b]).1 = 1 ∧ L.wcwidth (L.mbtowc st [b]).2.1 = 1

/-- A continuation byte of UTF-8. -/
def utf8_cont (b : Nat) : Bool := 0x80 ≤ b && b < 0xC0

/-- UTF-8 decoding of the one-, two- and three-byte forms, with the return
convention of `mbtowc`: the number of bytes consumed, `0` for the NUL byte,
`-1` for an incomplete or invalid sequence.  UTF-8 has no shift state. -/
def utf8_mbtowc (_st : Nat) : List Nat → Int × Int × Nat
  | [] => (-1, 0, 0)
  | b0 :: rest =>
    if b0 = 0 then (0, 0, 0)
    else if b0 < 0x80 then (1, (b0 : Int), 0)
    else if 0xC2 ≤ b0 ∧ b0 < 0xE0 then
      match rest with
      | b1 :: _ =>
        if utf8_cont b1 then (2, (((b0 - 0xC0) * 64 + (b1 - 0x80) : Nat) : Int), 0)
        else (-1, 0, 0)
      | [] => (-1, 0, 0)
    else if 0xE0 ≤ b0 ∧ b0 < 0xF0 then
      match rest with
      | b1 :: b2 :: _ =>
        if utf8_cont b1 ∧ utf8_cont b2 then
          (3, (((b0 - 0xE0) * 4096 + (b1 - 0x80) * 64 + (b2 - 0x80) : Nat) : Int), 0)
        else (-1, 0, 0)
      | _ => (-1, 0, 0)
    else (-1, 0, 0)

/-- A display-width function in the manner of `wcwidth`: `0` for NUL, `-1` for
control code points, `2` for the CJK block `U+3000`..`U+9FFF`, `1` otherwise. -/
def sample_wcwidth (wc : Int) : Int :=
  if wc = 0 then 0
  else if wc < 32 ∨ (127 ≤ wc ∧ wc < 160) then -1
  else if 0x3000 ≤ wc ∧ wc ≤ 0x9FFF then 2
  else 1

/-- A UTF-8 locale (`MB_CUR_MAX` is 6 there under glibc). -/
def utf8 : Locale := { MB_CUR_MAX := 6, mbtowc := utf8_mbtowc, wcwidth := sample_wcwidth }

/-- A terminal of 24 lines and 80 columns with the ANSI capability strings. -/
def vt : Terminal :=
  { cm := bytes "\x1b[%i%d;%dH", sf := [10], cs := bytes "\x1b[%i%d;%dr",
    cl := bytes "\x1b[H\x1b[2J", cr := [13], ce := bytes "\x1b[K",
    scr_lines := 24, scr_columns := 80, out := [] }

/-- The work buffer as `WorkBuffer()` and `init` leave it (`input_count` is 1;
the fields the constructor does not set are given as `0` / empty). -/
def fresh : WorkBuffer :=
  { term := vt, input_count := 1, width := 0, prompt := [], prompt_width := 0,
    chars := [], widths := [], in_buf := [], mbstate := 0 }

/-- The application state after `init`. -/
def fresh_app : App := { wait_count := 1, loop_cont := true, wkbuf := reset fresh }

/-- A termcap that emits capability strings unexpanded. -/
def plain_termcap : Termcap := { tputs := fun cap _ => cap, tgoto := fun cap _ _ => cap }

/-- The ASCII code of the lowercase hexadecimal digit `d` (`d < 16`). -/
def hex_digit (d : Nat) : Nat := if d < 10 then 48 + d else 87 + d

/-- The freshly reset line after the letter `a` was typed. -/
def after_a : WorkBuffer :=
  { reset fresh with
    chars := [[97]], widths := [1], width := 10,
    term := { (reset fresh).term with out := (reset fresh).term.out ++ [97] } }

/-- Seventy-five times the letter `a`. -/
def letters75 : List Nat := List.replicate 75 97

/-- The fresh line with five lead bytes `E3` pending, one short of
`MB_CUR_MAX` in the UTF-8 locale. -/
def stuck5 : WorkBuffer := { reset fresh with in_buf := [0xE3, 0xE3, 0xE3, 0xE3, 0xE3] }

/-- A short editing session: type `a`, a lead byte, delete twice, type `b`. -/
def sample_edits : List Call :=
  [Call.put_char 97, Call.put_char 0xE3, Call.delete_char, Call.delete_char, Call.put_char 98]

/-- A session that also uses Enter, clear-line and reset. -/
def sample_calls : List Call :=
  [Call.put_char 97, Call.put_enter, Call.put_char 0xE3, Call.put_char 0x81, Call.clear_line,
   Call.put_char 0xC3, Call.reset, Call.put_char 0xE3]

/-- The number that a string of ASCII decimal digits denotes, read from the
left: each further digit multiplies what was read by ten and adds its value. -/
def read_dec (ds : List Nat) : Nat := ds.foldl (fun acc d => 10 * acc + (d - 48)) 0

/-- The bytes `ds` are the decimal numeral of the natural number `m`: at least
one byte, ASCII digits `0`..`9` only, no leading `0` except for the numeral
`0` itself, denoting `m`. -/
def is_nat_decimal (ds : List Nat) (m : Nat) : Bool :=
  !ds.isEmpty && ds.all (fun d => 48 ≤ d && d ≤ 57) &&
    (ds.head? != some 48 || ds == [48]) && read_dec ds == m

/-- The bytes `ds` are the decimal numeral of the integer `n`: for a negative
`n` a minus sign followed by the numeral of its absolute value. -/
def is_decimal (ds : List Nat) (n : Int) : Bool :=
  if n < 0 then
    match ds with
    | 45 :: ms => is_nat_decimal ms n.natAbs
    | _ => false
  else is_nat_decimal ds n.toNat

/-- The line with the letter `a` typed and the input counter at `INT_MAX`. -/
def at_int_max : WorkBuffer := { after_a with input_count := 2147483647 }

/-- The line with the letter `a` typed and the input counter at 9. -/
def at_nine : WorkBuffer := { after_a with input_count := 9 }

/-! ## Basic facts about `commit_char` and the loop body -/

namespace WorkBuffer

@[simp] theorem commit_char_in_buf (s : WorkBuffer) (t : List Nat) (w : Int) :
    (commit_char s t w).in_buf = s.in_buf := by
  unfold commit_char; split <;> rfl

@[simp] theorem commit_char_mbstate (s : WorkBuffer) (t : List Nat) (w : Int) :
    (commit_char s t w).mbstate = s.mbstate := by
  unfold commit_char; split <;> rfl

@[simp] theorem commit_char_prompt_width (s : WorkBuffer) (t : List Nat) (w : Int) :
    (commit_char s t w).prompt_width = s.prompt_width := by
  unfold commit_char; split <;> rfl

@[simp] theorem commit_char_prompt (s : WorkBuffer) (t : List Nat) (w : Int) :
    (commit_char s t w).prompt = s.prompt := by
  unfold commit_char; split <;> rfl

@[simp] theorem commit_char_input_count (s : WorkBuffer) (t : List Nat) (w : Int) :
    (commit_char s t w).input_count = s.input_count := by
  unfold commit_char; split <;> rfl

@[simp] theorem commit_char_columns (s : WorkBuffer) (t : List Nat) (w : Int) :
    (commit_char s t w).term.scr_columns = s.term.scr_columns := by
  unfold commit_char; split <;> rfl

theorem commit_char_chars (s : WorkBuffer) (t : List Nat) (w : Int) :
    (commit_char s t w).chars = s.chars ++ (commit_glyphs s t w).map Prod.fst := by
  unfold commit_char commit_glyphs; split <;> simp

theorem commit_char_widths (s : WorkBuffer) (t : List Nat) (w : Int) :
    (commit_char s t w).widths = s.widths ++ (commit_glyphs s t w).map Prod.snd := by
  unfold commit_char commit_glyphs; split <;> simp

theorem commit_char_width (s : WorkBuffer) (t : List Nat) (w : Int) :
    (commit_char s t w).width = s.width + ((commit_glyphs s t w).map Prod.snd).sum := by
  unfold commit_char commit_glyphs; split <;> simp

theorem commit_char_out (s : WorkBuffer) (t : List Nat) (w : Int) :
    (commit_char s t w).term.out
      = s.term.out ++ ((commit_glyphs s t w).map Prod.fst).flatten := by
  unfold commit_char commit_glyphs; split <;> simp [Terminal.put_text]

/-- Every iteration that does not leave the loop strictly shortens `in_buf`. -/
theorem decode_iter_shortens (L : Locale) (s : WorkBuffer) (h : s.in_buf ≠ []) :
    (∀ s1, decode_iter L s = Iter.decoded s1 → s1.in_buf.length < s.in_buf.length) ∧
    (∀ s1, decode_iter L s = Iter.dropped s1 → s1.in_buf.length < s.in_buf.length) := by
  have hpos : 0 < s.in_buf.length := List.length_pos.mpr h
  constructor
  · intro s1 h1
    unfold decode_iter at h1
    simp only at h1
    split at h1
    · rename_i hlen
      injection h1 with h1
      subst h1
      have : 0 < (L.mbtowc s.mbstate s.in_buf).1.toNat := by omega
      simp only [commit_char_in_buf, List.length_drop]
      omega
    · split at h1 <;> cases h1
  · intro s1 h1
    unfold decode_iter at h1
    simp only at h1
    split at h1
    · cases h1
    · split at h1
      · injection h1 with h1
        subst h1
        simp only [List.length_drop]
        omega
      · cases h1

/-- The loop ends within `in_buf.length` iterations. -/
theorem decode_loop_total (L : Locale) :
    ∀ (fuel : Nat) (s : WorkBuffer), s.in_buf.length ≤ fuel →
      ∃ s1, decode_loop L fuel s = some s1 := by
  intro fuel
  induction fuel with
  | zero =>
    intro s h
    have : s.in_buf = [] := List.length_eq_zero.mp (Nat.le_zero.mp h)
    exact ⟨s, by unfold decode_loop; simp [this]⟩
  | succ n ih =>
    intro s h
    by_cases he : s.in_buf = []
    · exact ⟨s, by unfold decode_loop; simp [he]⟩
    · have hs := decode_iter_shortens L s he
      unfold decode_loop
      simp only [he, if_false]
      cases hd : decode_iter L s with
      | decoded s1 => exact ih s1 (by have := hs.1 s1 hd; omega)
      | dropped s1 => exact ih s1 (by have := hs.2 s1 hd; omega)
      | stopped s1 => exact ⟨s1, rfl⟩

/-- Method `put_char` always returns. -/
theorem put_char_total (L : Locale) (s : WorkBuffer) (ch : Nat) :
    ∃ s1, put_char L s ch = some s1 := by
  unfold put_char
  split
  · exact ⟨_, rfl⟩
  · exact decode_loop_total L _ _ (le_refl _)

/-- A property kept by every loop iteration is kept by the loop. -/
theorem decode_loop_keeps (L : Locale) (P : WorkBuffer → Prop)
    (hP : ∀ s, s.in_buf ≠ [] → P s → P (decode_iter L s).state) :
    ∀ (fuel : Nat) (s s1 : WorkBuffer), P s → decode_loop L fuel s = some s1 → P s1 := by
  intro fuel
  induction fuel with
  | zero =>
    intro s s1 hs h
    unfold decode_loop at h
    by_cases he : s.in_buf = []
    · simp [he] at h; exact h ▸ hs
    · simp [he] at h
  | succ n ih =>
    intro s s1 hs h
    unfold decode_loop at h
    by_cases he : s.in_buf = []
    · simp [he] at h; exact h ▸ hs
    · simp only [he, if_false] at h
      have hk := hP s he hs
      cases hd : decode_iter L s with
      | decoded s2 => rw [hd] at h hk; exact ih s2 s1 hk h
      | dropped s2 => rw [hd] at h hk; exact ih s2 s1 hk h
      | stopped s2 =>
        rw [hd] at h hk
        simp only [Option.some.injEq] at h
        exact h ▸ hk

end WorkBuffer

/-! ## Call sequences: totality and invariants -/

open WorkBuffer

theorem call_total (L : Locale) (s : WorkBuffer) (c : Call) :
    ∃ s1, call L s c = some s1 := by
  cases c with
  | put_char ch => exact put_char_total L s ch
  | delete_char => exact ⟨_, rfl⟩
  | clear_line => exact ⟨_, rfl⟩
  | put_enter => exact ⟨_, rfl⟩
  | reset => exact ⟨_, rfl⟩

theorem run_calls_total (L : Locale) :
    ∀ (cs : List Call) (s : WorkBuffer), ∃ s1, run_calls L cs s = some s1 := by
  intro cs
  induction cs with
  | nil => intro s; exact ⟨s, rfl⟩
  | cons c cs ih =>
    intro s
    obtain ⟨s1, h1⟩ := call_total L s c
    obtain ⟨s2, h2⟩ := ih s1
    exact ⟨s2, by simp [run_calls, h1, h2]⟩

/-- A property kept by every call of the kind `A` holds after any sequence of
such calls. -/
theorem run_calls_keeps (L : Locale) (A : Call → Prop) (P : WorkBuffer → Prop)
    (hP : ∀ s c s1, A c → P s → call L s c = some s1 → P s1) :
    ∀ (cs : List Call) (s s1 : WorkBuffer), (∀ c ∈ cs, A c) → P s →
      run_calls L cs s = some s1 → P s1 := by
  intro cs
  induction cs with
  | nil =>
    intro s s1 _ hs h
    simp only [run_calls, Option.some.injEq] at h
    exact h ▸ hs
  | cons c cs ih =>
    intro s s1 hA hs h
    unfold run_calls at h
    cases hc : call L s c with
    | none => simp [hc] at h
    | some s2 =>
      simp only [hc] at h
      exact ih s2 s1 (fun c1 h1 => hA c1 (List.mem_cons_of_mem _ h1))
        (hP s c s2 (hA c (List.mem_cons_self _ _)) hs hc) h

/-- What `put_char` keeps: a property kept by `commit_char` and indifferent to
`in_buf` and `mbstate`. -/
theorem put_char_keeps (L : Locale) (P : WorkBuffer → Prop)
    (hcommit : ∀ s t w, P s → P (commit_char s t w))
    (hbuf : ∀ s b m, P s → P { s with in_buf := b, mbstate := m })
    (s s1 : WorkBuffer) (ch : Nat) (hs : P s) (h : put_char L s ch = some s1) : P s1 := by
  unfold put_char at h
  split at h
  · simp only [Option.some.injEq] at h
    exact h ▸ hcommit _ _ _ hs
  · refine decode_loop_keeps L P ?_ _ _ s1 (hbuf s _ s.mbstate hs) h
    intro u _ hu
    unfold decode_iter
    simp only
    split
    · exact hbuf _ _ _ (hcommit _ _ _ (hbuf u u.in_buf _ hu))
    · split
      · exact hbuf u _ 0 hu
      · exact hbuf u u.in_buf 0 hu

theorem widthInv_clear_line (s : WorkBuffer) : WidthInv (clear_line s) := by
  simp [WidthInv, clear_line]

theorem widthInv_reset (s : WorkBuffer) : WidthInv (reset s) := by
  unfold reset; exact widthInv_clear_line _

theorem widthInv_commit_char (s : WorkBuffer) (t : List Nat) (w : Int)
    (h : WidthInv s) : WidthInv (commit_char s t w) := by
  obtain ⟨h1, h2⟩ := h
  unfold commit_char
  split
  · simp only [WidthInv, List.sum_append, List.sum_cons, List.sum_nil, List.length_append,
      List.length_singleton]
    omega
  · exact ⟨h1, h2⟩

theorem widthInv_delete_char (s : WorkBuffer) (h : WidthInv s) :
    WidthInv (delete_char s).2 := by
  obtain ⟨h1, h2⟩ := h
  unfold delete_char
  split
  · exact ⟨h1, h2⟩
  · split
    · exact ⟨h1, h2⟩
    · rename_i hc
      have hw : s.widths ≠ [] := by
        intro hw
        rw [hw] at h2
        exact hc (List.length_eq_zero.mp h2)
      obtain ⟨ws, w, hws⟩ : ∃ ws w, s.widths = ws ++ [w] :=
        ⟨s.widths.dropLast, s.widths.getLast hw, (List.dropLast_append_getLast hw).symm⟩
      simp only [WidthInv, hws, List.dropLast_concat, List.length_dropLast,
        List.getLastD_concat]
      rw [hws] at h1 h2
      simp only [List.sum_append, List.sum_cons, List.sum_nil, List.length_append,
        List.length_singleton] at h1 h2
      omega

theorem widthInv_call (L : Locale) (s : WorkBuffer) (c : Call) (s1 : WorkBuffer)
    (hs : WidthInv s) (h : call L s c = some s1) : WidthInv s1 := by
  cases c with
  | put_char ch =>
    exact put_char_keeps L WidthInv widthInv_commit_char
      (fun _ _ _ hu => hu) s s1 ch hs h
  | delete_char =>
    simp only [call, Option.some.injEq] at h
    exact h ▸ widthInv_delete_char s hs
  | clear_line =>
    simp only [call, Option.some.injEq] at h
    exact h ▸ widthInv_clear_line s
  | put_enter =>
    simp only [call, Option.some.injEq] at h
    exact h ▸ (by unfold put_enter; exact widthInv_reset _)
  | reset =>
    simp only [call, Option.some.injEq] at h
    exact h ▸ widthInv_reset s

/-! ## The pending-bytes buffer -/

/-- When the loop ends, `in_buf` is empty or shorter than `MB_CUR_MAX`. -/
theorem decode_loop_in_buf (L : Locale) :
    ∀ (fuel : Nat) (s s1 : WorkBuffer), decode_loop L fuel s = some s1 →
      s1.in_buf = [] ∨ s1.in_buf.length < L.MB_CUR_MAX := by
  intro fuel
  induction fuel with
  | zero =>
    intro s s1 h
    unfold decode_loop at h
    by_cases he : s.in_buf = []
    · simp [he] at h; exact Or.inl (h ▸ he)
    · simp [he] at h
  | succ n ih =>
    intro s s1 h
    unfold decode_loop at h
    by_cases he : s.in_buf = []
    · simp [he] at h; exact Or.inl (h ▸ he)
    · simp only [he, if_false] at h
      cases hd : decode_iter L s with
      | decoded s2 => rw [hd] at h; exact ih s2 s1 h
      | dropped s2 => rw [hd] at h; exact ih s2 s1 h
      | stopped s2 =>
        rw [hd] at h
        simp only [Option.some.injEq] at h
        subst h
        unfold decode_iter at hd
        simp only at hd
        split at hd
        · cases hd
        · split at hd
          · cases hd
          · rename_i hlt
            injection hd with hd
            subst hd
            exact Or.inr (by simpa using hlt)

theorem put_char_in_buf (L : Locale) (s s1 : WorkBuffer) (ch : Nat)
    (h : put_char L s ch = some s1) :
    s1.in_buf = [] ∨ s1.in_buf.length < L.MB_CUR_MAX := by
  unfold put_char at h
  split at h
  · rename_i hc
    simp only [Option.some.injEq] at h
    subst h
    exact Or.inl (by simpa using hc.2)
  · exact decode_loop_in_buf L _ _ s1 h

theorem delete_char_in_buf_length (s : WorkBuffer) :
    (delete_char s).2.in_buf.length ≤ s.in_buf.length := by
  unfold delete_char
  split
  · simp [string_pop_back]
  · split <;> simp

theorem in_buf_bound_call (L : Locale) (s : WorkBuffer) (c : Call) (s1 : WorkBuffer)
    (hs : s.in_buf.length ≤ L.MB_CUR_MAX - 1) (h : call L s c = some s1) :
    s1.in_buf.length ≤ L.MB_CUR_MAX - 1 := by
  cases c with
  | put_char ch =>
    rcases put_char_in_buf L s s1 ch h with h1 | h1
    · simp [h1]
    · omega
  | delete_char =>
    simp only [call, Option.some.injEq] at h
    subst h
    exact le_trans (delete_char_in_buf_length s) hs
  | clear_line =>
    simp only [call, Option.some.injEq] at h
    subst h
    simp [clear_line]
  | put_enter =>
    simp only [call, Option.some.injEq] at h
    subst h
    simp [put_enter, reset, clear_line]
  | reset =>
    simp only [call, Option.some.injEq] at h
    subst h
    simp [reset, clear_line]

/-- In every state reached from a `reset`, `in_buf` is shorter than
`MB_CUR_MAX` (or empty, should `MB_CUR_MAX` be `0`). -/
theorem in_buf_bound_reach (L : Locale) (s0 : WorkBuffer) (cs : List Call) (s : WorkBuffer)
    (h : run_calls L cs (reset s0) = some s) : s.in_buf.length ≤ L.MB_CUR_MAX - 1 :=
  run_calls_keeps L (fun _ => True) (fun u => u.in_buf.length ≤ L.MB_CUR_MAX - 1)
    (fun u c u1 _ hu hc => in_buf_bound_call L u c u1 hu hc) cs (reset s0) s
    (fun _ _ => trivial) (by simp [reset, clear_line]) h

/-! ## Resynchronisation -/

theorem decode_iter_dropped (L : Locale) (s s1 : WorkBuffer)
    (h : decode_iter L s = Iter.dropped s1) :
    L.MB_CUR_MAX ≤ s.in_buf.length ∧ (L.mbtowc s.mbstate s.in_buf).1 ≤ 0 ∧
      s1 = { s with mbstate := 0, in_buf := s.in_buf.drop 1 } := by
  unfold decode_iter at h
  simp only at h
  split at h
  · cases h
  · rename_i hlen
    split at h
    · rename_i hmb
      injection h with h
      exact ⟨hmb, not_lt.mp hlen, h.symm⟩
    · cases h

theorem decode_drops_le_length (L : Locale) :
    ∀ (fuel : Nat) (s : WorkBuffer), decode_drops L fuel s ≤ s.in_buf.length := by
  intro fuel
  induction fuel with
  | zero => intro s; unfold decode_drops; split <;> simp
  | succ n ih =>
    intro s
    unfold decode_drops
    by_cases he : s.in_buf = []
    · simp [he]
    · simp only [he, if_false]
      have hs := decode_iter_shortens L s he
      cases hd : decode_iter L s with
      | decoded s1 => have := hs.1 s1 hd; have := ih s1; simp only; omega
      | dropped s1 => have := hs.2 s1 hd; have := ih s1; simp only; omega
      | stopped s1 => simp

theorem decode_drops_le (L : Locale) :
    ∀ (fuel : Nat) (s : WorkBuffer),
      decode_drops L fuel s ≤ s.in_buf.length + 1 - L.MB_CUR_MAX := by
  intro fuel
  induction fuel with
  | zero => intro s; unfold decode_drops; split <;> simp
  | succ n ih =>
    intro s
    unfold decode_drops
    by_cases he : s.in_buf = []
    · simp [he]
    · simp only [he, if_false]
      have hs := decode_iter_shortens L s he
      cases hd : decode_iter L s with
      | decoded s1 => have := hs.1 s1 hd; have := ih s1; simp only; omega
      | dropped s1 =>
        have := hs.2 s1 hd
        have := ih s1
        have := (decode_iter_dropped L s s1 hd).1
        simp only
        omega
      | stopped s1 => simp

/-- From a buffer shorter than `MB_CUR_MAX` (or empty), one `put_char` erases
at most one front byte. -/
theorem put_char_drops_le_one (L : Locale) (s : WorkBuffer) (ch : Nat)
    (hs : s.in_buf.length ≤ L.MB_CUR_MAX - 1) : put_char_drops L s ch ≤ 1 := by
  unfold put_char_drops
  split
  · exact Nat.zero_le _
  · have h1 := decode_drops_le_length L (s.in_buf ++ [ch]).length
      { s with in_buf := s.in_buf ++ [ch] }
    have h2 := decode_drops_le L (s.in_buf ++ [ch]).length
      { s with in_buf := s.in_buf ++ [ch] }
    simp only [List.length_append, List.length_singleton] at h1 h2 ⊢
    omega

/-- The resynchronisation step of `put_char`. -/
theorem put_char_resync (L : Locale) (s : WorkBuffer) (ch : Nat)
    (hc : ¬ (ch < 0x20 ∧ s.in_buf = []))
    (hlen : (s.in_buf ++ [ch]).length = L.MB_CUR_MAX)
    (hrej : (L.mbtowc s.mbstate (s.in_buf ++ [ch])).1 ≤ 0) :
    put_char L s ch
        = decode_loop L s.in_buf.length
            { s with mbstate := 0, in_buf := (s.in_buf ++ [ch]).drop 1 } ∧
      put_char_drops L s ch = 1 := by
  have hd : decode_iter L { s with in_buf := s.in_buf ++ [ch] }
      = Iter.dropped { s with mbstate := 0, in_buf := (s.in_buf ++ [ch]).drop 1 } := by
    unfold decode_iter
    simp only [not_lt.mpr hrej, if_false, hlen, le_refl, if_true]
  constructor
  · unfold put_char
    simp only [hc, if_false, List.length_append, List.length_singleton]
    rw [decode_loop]
    simp only [List.append_eq_nil, List.cons_ne_self, and_false, if_false, hd]
  · unfold put_char_drops
    simp only [hc, if_false, List.length_append, List.length_singleton]
    rw [decode_drops]
    simp only [List.append_eq_nil, List.cons_ne_self, and_false, if_false, hd]
    have h2 := decode_drops_le L s.in_buf.length
      { s with mbstate := 0, in_buf := (s.in_buf ++ [ch]).drop 1 }
    simp only [List.length_drop, List.length_append, List.length_singleton] at h2 hlen
    omega

/-! ## The glyphs a call appends -/

theorem Grows.trans {s s1 s2 : WorkBuffer} {g1 g2 : List (List Nat × Int)}
    (h1 : Grows s s1 g1) (h2 : Grows s1 s2 g2) : Grows s s2 (g1 ++ g2) := by
  obtain ⟨a1, a2, a3, a4⟩ := h1
  obtain ⟨b1, b2, b3, b4⟩ := h2
  refine ⟨?_, ?_, ?_, ?_⟩
  · rw [b1, a1]; simp
  · rw [b2, a2]; simp
  · rw [b3, a3]; simp only [List.map_append, List.sum_append]; omega
  · rw [b4, a4]; simp

theorem grows_commit_char (s : WorkBuffer) (t : List Nat) (w : Int) :
    Grows s (commit_char s t w) (commit_glyphs s t w) :=
  ⟨commit_char_chars s t w, commit_char_widths s t w, commit_char_width s t w,
    commit_char_out s t w⟩

theorem grows_decode_iter (L : Locale) (s : WorkBuffer) :
    (∀ s1, decode_iter L s = Iter.decoded s1 → Grows s s1 (iter_glyphs L s)) ∧
    (∀ s1, decode_iter L s = Iter.dropped s1 → Grows s s1 []) ∧
    (∀ s1, decode_iter L s = Iter.stopped s1 → Grows s s1 []) := by
  refine ⟨?_, ?_, ?_⟩
  · intro s1 h
    unfold decode_iter at h
    simp only at h
    split at h
    · rename_i hlen
      injection h with h
      subst h
      have := grows_commit_char { s with mbstate := (L.mbtowc s.mbstate s.in_buf).2.2 }
        (s.in_buf.take (L.mbtowc s.mbstate s.in_buf).1.toNat)
        (L.wcwidth (L.mbtowc s.mbstate s.in_buf).2.1)
      unfold iter_glyphs
      simp only [hlen, if_true]
      exact this
    · split at h <;> cases h
  · intro s1 h
    rw [(decode_iter_dropped L s s1 h).2.2]
    simp [Grows]
  · intro s1 h
    unfold decode_iter at h
    simp only at h
    split at h
    · cases h
    · split at h
      · cases h
      · injection h with h
        subst h
        simp [Grows]

theorem grows_decode_loop (L : Locale) :
    ∀ (fuel : Nat) (s s1 : WorkBuffer), decode_loop L fuel s = some s1 →
      Grows s s1 (decode_glyphs L fuel s) := by
  intro fuel
  induction fuel with
  | zero =>
    intro s s1 h
    unfold decode_loop at h
    unfold decode_glyphs
    by_cases he : s.in_buf = []
    · simp [he] at h; subst h; simp [he, Grows]
    · simp [he] at h
  | succ n ih =>
    intro s s1 h
    unfold decode_loop at h
    unfold decode_glyphs
    by_cases he : s.in_buf = []
    · simp [he] at h; subst h; simp [he, Grows]
    · simp only [he, if_false] at h ⊢
      have hg := grows_decode_iter L s
      cases hd : decode_iter L s with
      | decoded s2 =>
        rw [hd] at h
        exact (hg.1 s2 hd).trans (ih s2 s1 h)
      | dropped s2 =>
        rw [hd] at h
        simpa using (hg.2.1 s2 hd).trans (ih s2 s1 h)
      | stopped s2 =>
        rw [hd] at h
        simp only [Option.some.injEq] at h
        subst h
        exact hg.2.2 s2 hd

theorem grows_put_char (L : Locale) (s s1 : WorkBuffer) (ch : Nat)
    (h : put_char L s ch = some s1) : Grows s s1 (put_char_glyphs L s ch) := by
  unfold put_char at h
  unfold put_char_glyphs
  split at h
  · rename_i hc
    simp only [Option.some.injEq] at h
    subst h
    simp only [hc, and_self, if_true]
    exact grows_commit_char s _ _
  · rename_i hc
    simp only [hc, if_false]
    have := grows_decode_loop L _ _ s1 h
    exact this

/-- Method `delete_char` right after a glyph was appended and with nothing
pending: it pops exactly that glyph. -/
theorem delete_char_after_glyph (s : WorkBuffer) (cs : List (List Nat)) (t : List Nat)
    (ws : List Int) (w : Int) (hb : s.in_buf = []) (hc : s.chars = cs ++ [t])
    (hw : s.widths = ws ++ [w]) :
    delete_char s = (w, { s with chars := cs, widths := ws, width := s.width - w }) := by
  unfold delete_char
  simp [hb, hc, hw]

/-! ## The right screen edge -/

theorem edgeInv_width (s : WorkBuffer) (h : EdgeInv s) : s.width < s.term.scr_columns := by
  have := h.2 s.widths.length
  rw [List.take_length] at this
  rw [h.1.1]
  exact this

theorem edgeInv_clear_line (s : WorkBuffer) (h : s.prompt_width < s.term.scr_columns) :
    EdgeInv (clear_line s) := by
  refine ⟨widthInv_clear_line s, ?_⟩
  intro n
  simpa [clear_line, Terminal.put_text] using h

theorem edgeInv_commit_char (s : WorkBuffer) (t : List Nat) (w : Int) (h : EdgeInv s) :
    EdgeInv (commit_char s t w) := by
  refine ⟨widthInv_commit_char s t w h.1, ?_⟩
  unfold commit_char
  split
  · rename_i hlt
    intro n
    simp only [Terminal.get_screen_columns] at hlt
    simp only [Terminal.put_text, List.take_append_eq_append_take, List.sum_append]
    rcases Nat.lt_or_ge s.widths.length n with hn | hn
    · obtain ⟨k, hk⟩ : ∃ k, n - s.widths.length = k + 1 := ⟨n - s.widths.length - 1, by omega⟩
      rw [hk, List.take_of_length_le (le_of_lt hn)]
      have h1 := h.1.1
      simp only [List.take_succ_cons, List.take_nil, List.sum_cons, List.sum_nil]
      omega
    · have : n - s.widths.length = 0 := by omega
      rw [this]
      have := h.2 n
      simpa using this
  · exact h.2

theorem edgeInv_delete_char (s : WorkBuffer) (h : EdgeInv s) : EdgeInv (delete_char s).2 := by
  refine ⟨widthInv_delete_char s h.1, ?_⟩
  unfold delete_char
  split
  · exact h.2
  · split
    · exact h.2
    · intro n
      have := h.2 (min n (s.widths.length - 1))
      simp only [List.dropLast_eq_take]
      rw [List.take_take]
      exact this

theorem edgeInv_call (L : Locale) (s : WorkBuffer) (c : Call) (s1 : WorkBuffer)
    (hc : c.is_edit = true) (hs : EdgeInv s) (h : call L s c = some s1) : EdgeInv s1 := by
  cases c with
  | put_char ch =>
    exact put_char_keeps L EdgeInv edgeInv_commit_char (fun _ _ _ hu => hu) s s1 ch hs h
  | delete_char =>
    simp only [call, Option.some.injEq] at h
    exact h ▸ edgeInv_delete_char s hs
  | clear_line => cases hc
  | put_enter => cases hc
  | reset => cases hc

theorem columns_call (L : Locale) (s : WorkBuffer) (c : Call) (s1 : WorkBuffer)
    (h : call L s c = some s1) : s1.term.scr_columns = s.term.scr_columns := by
  cases c with
  | put_char ch =>
    exact put_char_keeps L (fun u => u.term.scr_columns = s.term.scr_columns)
      (fun u t w hu => by simpa using hu) (fun _ _ _ hu => hu) s s1 ch rfl h
  | delete_char =>
    simp only [call, Option.some.injEq] at h
    subst h
    unfold delete_char
    split
    · rfl
    · split <;> rfl
  | clear_line =>
    simp only [call, Option.some.injEq] at h
    subst h
    rfl
  | put_enter =>
    simp only [call, Option.some.injEq] at h
    subst h
    unfold put_enter
    simp only
    split <;> rfl
  | reset =>
    simp only [call, Option.some.injEq] at h
    subst h
    rfl

/-- After any sequence of `put_char` and `delete_char` calls made on a state
that satisfies `EdgeInv`, the width is left of the last column. -/
theorem edge_after_edits (L : Locale) (cs : List Call) (hcs : ∀ c ∈ cs, c.is_edit = true)
    (s : WorkBuffer) (hs : EdgeInv s) :
    ∃ s1, run_calls L cs s = some s1 ∧ s1.width < s1.term.scr_columns ∧
      s1.term.scr_columns = s.term.scr_columns := by
  obtain ⟨s1, h1⟩ := run_calls_total L cs s
  refine ⟨s1, h1, ?_, ?_⟩
  · exact edgeInv_width s1
      (run_calls_keeps L (fun c => c.is_edit = true) EdgeInv (edgeInv_call L) cs s s1 hcs hs h1)
  · exact run_calls_keeps L (fun _ => True) (fun u => u.term.scr_columns = s.term.scr_columns)
      (fun u c u1 _ hu hc => (columns_call L u c u1 hc).trans hu) cs s s1
      (fun _ _ => trivial) rfl h1

/-! ## Single `put_char` steps -/

theorem decode_loop_nil (L : Locale) (fuel : Nat) (s : WorkBuffer) (h : s.in_buf = []) :
    decode_loop L fuel s = some s := by
  unfold decode_loop
  simp [h]

/-- A byte that completes the buffer to one code point: the whole buffer is
handed to `commit_char` and `in_buf` is emptied. -/
theorem put_char_complete (L : Locale) (s : WorkBuffer) (ch : Nat)
    (hc : ¬ (ch < 0x20 ∧ s.in_buf = []))
    (hdec : (L.mbtowc s.mbstate (s.in_buf ++ [ch])).1 = ((s.in_buf ++ [ch]).length : Int)) :
    put_char L s ch
      = some { commit_char
                 { s with in_buf := s.in_buf ++ [ch],
                          mbstate := (L.mbtowc s.mbstate (s.in_buf ++ [ch])).2.2 }
                 (s.in_buf ++ [ch])
                 (L.wcwidth (L.mbtowc s.mbstate (s.in_buf ++ [ch])).2.1)
               with in_buf := [] } := by
  have hpos : (0 : Int) < (L.mbtowc s.mbstate (s.in_buf ++ [ch])).1 := by
    rw [hdec]; simp
  have hnat : (L.mbtowc s.mbstate (s.in_buf ++ [ch])).1.toNat = (s.in_buf ++ [ch]).length := by
    rw [hdec]; simp
  have hd : decode_iter L { s with in_buf := s.in_buf ++ [ch] }
      = Iter.decoded { commit_char
                 { s with in_buf := s.in_buf ++ [ch],
                          mbstate := (L.mbtowc s.mbstate (s.in_buf ++ [ch])).2.2 }
                 (s.in_buf ++ [ch])
                 (L.wcwidth (L.mbtowc s.mbstate (s.in_buf ++ [ch])).2.1)
               with in_buf := [] } := by
    unfold decode_iter
    simp only [hpos, if_true, hnat, List.take_length, commit_char_in_buf, List.drop_length]
  unfold put_char
  simp only [hc, if_false, List.length_append, List.length_singleton]
  rw [decode_loop]
  simp only [List.append_eq_nil, List.cons_ne_self, and_false, if_false, hd]
  exact decode_loop_nil L _ _ rfl

/-- A control byte arriving on an empty `in_buf`. -/
theorem put_char_control (L : Locale) (s : WorkBuffer) (ch : Nat)
    (hc : ch < 0x20) (hb : s.in_buf = []) :
    put_char L s ch = some (commit_char s (ctrl_text ch) ((ctrl_text ch).length : Int)) := by
  unfold put_char
  simp [hc, hb]

theorem put_char_letter (L : Locale) (hL : DecodesLetters L) (s : WorkBuffer) (b : Nat)
    (hb : is_letter b = true) (he : s.in_buf = []) :
    ∃ s1, put_char L s b = some s1 ∧ s1.in_buf = [] ∧
      s1.term.scr_columns = s.term.scr_columns ∧
      Grows s s1 (if s.width + 1 < s.term.scr_columns then [([b], 1)] else []) := by
  have hb32 : ¬ (b < 0x20 ∧ s.in_buf = []) := by
    simp only [is_letter, Bool.or_eq_true, Bool.and_eq_true, decide_eq_true_eq] at hb
    omega
  have h1 := (hL s.mbstate b hb).1
  have h2 := (hL s.mbstate b hb).2
  have hp := put_char_complete L s b hb32 (by rw [he]; simpa using h1)
  rw [he] at hp
  simp only [List.nil_append, h2] at hp
  refine ⟨_, hp, rfl, by simp, ?_⟩
  have g := grows_commit_char
    { s with in_buf := [b], mbstate := (L.mbtowc s.mbstate [b]).2.2 } [b] 1
  simpa [Grows, commit_glyphs, Terminal.get_screen_columns] using g

theorem run_letters (L : Locale) (hL : DecodesLetters L) :
    ∀ (letters : List Nat) (s : WorkBuffer), (∀ b ∈ letters, is_letter b = true) →
      s.in_buf = [] →
      ∃ s1, run_calls L (letters.map Call.put_char) s = some s1 ∧ s1.in_buf = [] ∧
        s1.term.scr_columns = s.term.scr_columns ∧
        Grows s s1 ((letters.take (s.term.scr_columns - 1 - s.width).toNat).map
          (fun b => ([b], (1 : Int)))) := by
  intro letters
  induction letters with
  | nil =>
    intro s _ he
    exact ⟨s, rfl, he, rfl, by simp [Grows]⟩
  | cons b l ih =>
    intro s hl he
    obtain ⟨s1, h1, he1, hc1, hg1⟩ :=
      put_char_letter L hL s b (hl b (List.mem_cons_self _ _)) he
    obtain ⟨s2, h2, he2, hc2, hg2⟩ :=
      ih s1 (fun c hc => hl c (List.mem_cons_of_mem _ hc)) he1
    refine ⟨s2, ?_, he2, hc2.trans hc1, ?_⟩
    · simp only [List.map_cons, run_calls, call, h1, h2]
    · have hg := hg1.trans hg2
      by_cases hroom : s.width + 1 < s.term.scr_columns
      · simp only [hroom, if_true] at hg1 hg
        have hw : s1.width = s.width + 1 := by simpa using hg1.2.2.1
        obtain ⟨n, hn⟩ : ∃ n, (s.term.scr_columns - 1 - s.width).toNat = n + 1 :=
          ⟨(s.term.scr_columns - 1 - s.width).toNat - 1, by omega⟩
        have hn1 : (s1.term.scr_columns - 1 - s1.width).toNat = n := by
          rw [hc1, hw]; omega
        rw [hn1] at hg
        rw [hn]
        simpa using hg
      · simp only [hroom, if_false] at hg1 hg
        have hw : s1.width = s.width := by simpa using hg1.2.2.1
        have hn : (s.term.scr_columns - 1 - s.width).toNat = 0 := by omega
        have hn1 : (s1.term.scr_columns - 1 - s1.width).toNat = 0 := by
          rw [hc1, hw]; omega
        rw [hn1] at hg
        rw [hn]
        simpa using hg

/-! ## Multi-byte code points, byte by byte -/

theorem fmt_dec_samples :
    fmt_dec 1 = bytes "1" ∧ fmt_dec 10 = bytes "10" ∧ fmt_dec 2024 = bytes "2024" ∧
      fmt_dec 0 = bytes "0" ∧ fmt_dec (-7) = bytes "-7" := by
  decide

theorem ctrl_text_eq (b : Nat) (hb : b < 32) :
    ctrl_text b = [91, hex_digit (b / 16), hex_digit (b % 16), 93] := by
  interval_cases b <;> decide

/-! ## The claims -/

/-- Claim C1 (width invariant).  Whatever the locale (decoder and display-width
function), the starting state and the sequence of `put_char`, `delete_char`,
`clear_line`, `put_enter` and `reset` calls made after a `reset`, the calls all
return, and in the state reached `width` is `prompt_width` plus the sum of the
entries of `widths`, and `chars` and `widths` have the same length. -/
theorem C1_width_invariant (L : Locale) (s0 : WorkBuffer) (cs : List Call) :
    ∃ s, run_calls L cs (reset s0) = some s ∧
      s.width = s.prompt_width + s.widths.sum ∧ s.chars.length = s.widths.length := by
  obtain ⟨s, hs⟩ := run_calls_total L cs (reset s0)
  exact ⟨s, hs, run_calls_keeps L (fun _ => True) WidthInv
    (fun u c u1 _ hu hc => widthInv_call L u c u1 hu hc) cs (reset s0) s
    (fun _ _ => trivial) (widthInv_reset s0) hs⟩

/-- Claim C2 (commit policy).  For every state and glyph `(text, w)`,
`commit_char` appends the glyph (text onto `chars`, `w` onto `widths`, `w`
added to `width`, exactly `text` written to the output, nothing else touched)
when `width + w < screen_columns`, leaves the state as it is otherwise, and so
appends if and only if `width + w < screen_columns`.  Scenario: with 80
columns and `input_count` 1 the prompt is `input.1> `, 9 columns wide; feeding
ASCII letters, each decoded as one glyph of width 1, to the freshly reset line
commits the first 70 of them (width 79 once 70 or more were fed) and discards
the 71st and all later ones. -/
theorem C2_commit_policy :
    (∀ (s : WorkBuffer) (text : List Nat) (w : Int),
      (s.width + w < s.term.scr_columns →
        commit_char s text w =
          { s with chars := s.chars ++ [text], widths := s.widths ++ [w],
                   width := s.width + w,
                   term := { s.term with out := s.term.out ++ text } }) ∧
      (¬ (s.width + w < s.term.scr_columns) → commit_char s text w = s) ∧
      ((commit_char s text w).chars = s.chars ++ [text] ↔
        s.width + w < s.term.scr_columns)) ∧
    (∀ (L : Locale) (s0 : WorkBuffer) (letters : List Nat),
      DecodesLetters L → (∀ b ∈ letters, is_letter b = true) →
      s0.input_count = 1 → s0.term.scr_columns = 80 →
      (reset s0).prompt = bytes "input.1> " ∧ (reset s0).width = 9 ∧
      ∃ s, run_calls L (letters.map Call.put_char) (reset s0) = some s ∧
        s.chars = (letters.take 70).map (fun b => [b]) ∧
        s.widths = (letters.take 70).map (fun _ => (1 : Int)) ∧
        s.width = 9 + ((min 70 letters.length : Nat) : Int) ∧
        s.term.out = (reset s0).term.out ++ letters.take 70) := by
  constructor
  · intro s text w
    refine ⟨?_, ?_, ?_⟩
    · intro h
      unfold commit_char
      simp [Terminal.get_screen_columns, Terminal.put_text, h]
    · intro h
      unfold commit_char
      simp [Terminal.get_screen_columns, h]
    · constructor
      · intro h
        by_contra hn
        have : commit_char s text w = s := by
          unfold commit_char
          simp [Terminal.get_screen_columns, hn]
        rw [this] at h
        have := congrArg List.length h
        simp at this
      · intro h
        unfold commit_char
        simp [Terminal.get_screen_columns, h]
  · intro L s0 letters hL hl hcount hcols
    have hprompt : (reset s0).prompt = bytes "input.1> " := by
      simp only [reset, clear_line, hcount]
      decide
    have hwidth : (reset s0).width = 9 := by
      simp only [reset, clear_line, hcount]
      decide
    have hc : (reset s0).term.scr_columns = 80 := by
      simpa [reset, clear_line, Terminal.put_text] using hcols
    obtain ⟨s, hrun, _, _, hg⟩ := run_letters L hL letters (reset s0) hl
      (by simp [reset, clear_line])
    have hn : ((reset s0).term.scr_columns - 1 - (reset s0).width).toNat = 70 := by
      rw [hc, hwidth]; rfl
    rw [hn] at hg
    obtain ⟨g1, g2, g3, g4⟩ := hg
    refine ⟨hprompt, hwidth, s, hrun, ?_, ?_, ?_, ?_⟩
    · rw [g1]
      simp [reset, clear_line, Function.comp_def]
    · rw [g2]
      simp [reset, clear_line, Function.comp_def]
    · rw [g3, hwidth]
      simp [Function.comp_def]
    · have hfl : ∀ l : List Nat, (l.map (fun x => [x])).flatten = l := by
        intro l
        induction l with
        | nil => rfl
        | cons a l ih => simp [ih]
      rw [g4]
      simp only [List.map_map, Function.comp_def]
      rw [hfl]

theorem utf8_decodes_letters : DecodesLetters utf8 := by
  intro st b hb
  simp only [is_letter, Bool.or_eq_true, Bool.and_eq_true, decide_eq_true_eq] at hb
  have h0 : b ≠ 0 := by omega
  have h1 : b < 128 := by omega
  have h2 : ¬ ((b : Int) = 0) := by omega
  have h3 : ¬ ((b : Int) < 32 ∨ (127 ≤ (b : Int) ∧ (b : Int) < 160)) := by omega
  have h4 : ¬ (0x3000 ≤ (b : Int) ∧ (b : Int) ≤ 0x9FFF) := by omega
  simp only [utf8, utf8_mbtowc, h0, h1, if_true, if_false, sample_wcwidth, h2, h3, h4,
    and_self]

/-- Witness for C2: 75 letters `a` typed on the fresh 80-column line; 70 are
committed and the width is 79. -/
theorem C2_commit_policy_witness :
    ∃ s, run_calls utf8 (letters75.map Call.put_char) (reset fresh) = some s ∧
      s.chars = List.replicate 70 [97] ∧ s.width = 79 := by
  obtain ⟨s, h1, h2, _, h4, _⟩ :=
    (C2_commit_policy.2 utf8 fresh letters75 utf8_decodes_letters (by decide) rfl rfl).2.2
  refine ⟨s, h1, ?_, ?_⟩
  · rw [h2]; decide
  · rw [h4]; decide

/-- Claim C3 (commit/delete round trip).  When a `put_char` call appends the
glyphs `gs` and then `(text, w)`, and leaves `in_buf` empty, the next
`delete_char` returns `w`, takes `text` off `chars` and `w` off `widths`, and
sets `width` back to what it was before that last glyph was appended (the
width at the call plus the widths of `gs`); nothing else changes.  A call after
which `chars` is longer than before has appended such a last glyph.  With
`in_buf` non-empty, `delete_char` returns 0 and removes the last byte of
`in_buf` only.  With `in_buf` and `chars` both empty it returns 0 and changes
nothing. -/
theorem C3_commit_delete_round_trip (L : Locale) :
    (∀ (s s1 : WorkBuffer) (ch : Nat) (gs : List (List Nat × Int)) (text : List Nat)
        (w : Int),
      put_char L s ch = some s1 → put_char_glyphs L s ch = gs ++ [(text, w)] →
      s1.in_buf = [] →
        s1.chars = s.chars ++ gs.map Prod.fst ++ [text] ∧
        s1.widths = s.widths ++ gs.map Prod.snd ++ [w] ∧
        s1.width = s.width + (gs.map Prod.snd).sum + w ∧
        delete_char s1 =
          (w, { s1 with chars := s.chars ++ gs.map Prod.fst,
                        widths := s.widths ++ gs.map Prod.snd,
                        width := s.width + (gs.map Prod.snd).sum })) ∧
    (∀ (s s1 : WorkBuffer) (ch : Nat),
      put_char L s ch = some s1 → s.chars.length < s1.chars.length →
        ∃ gs text w, put_char_glyphs L s ch = gs ++ [(text, w)]) ∧
    (∀ s : WorkBuffer, s.in_buf ≠ [] →
      delete_char s = (0, { s with in_buf := s.in_buf.dropLast }) ∧
      s.in_buf.dropLast.length + 1 = s.in_buf.length ∧
      s.in_buf.dropLast = s.in_buf.take (s.in_buf.length - 1)) ∧
    (∀ s : WorkBuffer, s.in_buf = [] → s.chars = [] → delete_char s = (0, s)) := by
  refine ⟨?_, ?_, ?_, ?_⟩
  · intro s s1 ch gs text w hput hgl hbuf
    have hg := grows_put_char L s s1 ch hput
    rw [hgl] at hg
    obtain ⟨g1, g2, g3, _⟩ := hg
    simp only [List.map_append, List.map_cons, List.map_nil, List.sum_append, List.sum_cons,
      List.sum_nil, add_zero, ← List.append_assoc, ← add_assoc] at g1 g2 g3
    refine ⟨g1, g2, g3, ?_⟩
    rw [delete_char_after_glyph s1 _ text _ w hbuf g1 g2, g3]
    simp
  · intro s s1 ch hput hlen
    have hg := (grows_put_char L s s1 ch hput).1
    have hne : put_char_glyphs L s ch ≠ [] := by
      intro hnil
      rw [hg, hnil] at hlen
      simp at hlen
    exact ⟨(put_char_glyphs L s ch).dropLast, ((put_char_glyphs L s ch).getLast hne).1,
      ((put_char_glyphs L s ch).getLast hne).2, (List.dropLast_append_getLast hne).symm⟩
  · intro s h
    refine ⟨?_, ?_, List.dropLast_eq_take _⟩
    · unfold delete_char
      simp [h, string_pop_back]
    · have := List.length_pos.mpr h
      rw [List.length_dropLast]
      omega
  · intro s hb hc
    unfold delete_char
    simp [hb, hc]

/-- Witness for C3: `a` typed on the fresh line, then deleted. -/
theorem C3_commit_delete_round_trip_witness :
    put_char utf8 (reset fresh) 97 = some after_a ∧
      delete_char after_a = (1, { after_a with chars := [], widths := [], width := 9 }) := by
  have h1 : put_char utf8 (reset fresh) 97 = some after_a := by decide
  have h := (C3_commit_delete_round_trip utf8).1 (reset fresh) after_a 97 [] [97] 1 h1
    (by decide) (by decide)
  exact ⟨h1, h.2.2.2⟩

/-- Claim C4 (control-byte glyph).  For a byte `b` in 0..31 arriving while
`in_buf` is empty, `put_char` hands to `commit_char` the glyph whose text is
`[`, the two lowercase hexadecimal digits of `b` (zero padded), `]`, with
width 4; `in_buf` stays empty, and the decoder is not consulted: the shift
state is untouched and the result is the same under every locale. -/
theorem C4_control_byte_glyph (L : Locale) (s : WorkBuffer) (b : Nat) (hb : b < 32)
    (he : s.in_buf = []) :
    put_char L s b
        = some (commit_char s [91, hex_digit (b / 16), hex_digit (b % 16), 93] 4) ∧
      (commit_char s [91, hex_digit (b / 16), hex_digit (b % 16), 93] 4).in_buf = [] ∧
      (commit_char s [91, hex_digit (b / 16), hex_digit (b % 16), 93] 4).mbstate
        = s.mbstate ∧
      put_char_glyphs L s b
        = commit_glyphs s [91, hex_digit (b / 16), hex_digit (b % 16), 93] 4 ∧
      (∀ L1 : Locale, put_char L1 s b = put_char L s b) := by
  have ht := ctrl_text_eq b hb
  have hp : ∀ L1 : Locale, put_char L1 s b
      = some (commit_char s [91, hex_digit (b / 16), hex_digit (b % 16), 93] 4) := by
    intro L1
    rw [put_char_control L1 s b hb he, ht]
    rfl
  refine ⟨hp L, by simpa using he, by simp, ?_, fun L1 => (hp L1).trans (hp L).symm⟩
  unfold put_char_glyphs
  simp only [hb, he, and_self, if_true, ht]
  rfl

/-- Witness for C4: the byte `1b` (ESC) on the fresh line gives the glyph
`[1b]` of width 4. -/
theorem C4_control_byte_glyph_witness :
    put_char utf8 (reset fresh) 27 = some (commit_char (reset fresh) (bytes "[1b]") 4) ∧
      (commit_char (reset fresh) (bytes "[1b]") 4).widths = [4] :=
  ⟨(C4_control_byte_glyph utf8 (reset fresh) 27 (by decide) (by decide)).1, by decide⟩

/-- Claim C6 (invalid-sequence resynchronisation).  When a `put_char` call
brings `in_buf` to `MB_CUR_MAX` bytes and the decoder rejects the buffer, the
first byte of `in_buf`, and only that byte, is erased and the loop goes on with
the remaining bytes.  In every state reached from a `reset`, a `put_char` call
erases at most one byte in this way.  Every `put_char` call returns, every
loop iteration that does not leave the loop strictly shortening `in_buf`. -/
theorem C6_resynchronisation (L : Locale) :
    (∀ (s : WorkBuffer) (ch : Nat), ¬ (ch < 0x20 ∧ s.in_buf = []) →
      (s.in_buf ++ [ch]).length = L.MB_CUR_MAX →
      (L.mbtowc s.mbstate (s.in_buf ++ [ch])).1 ≤ 0 →
        put_char L s ch
            = decode_loop L s.in_buf.length
                { s with mbstate := 0, in_buf := (s.in_buf ++ [ch]).drop 1 } ∧
          put_char_drops L s ch = 1) ∧
    (∀ (s0 : WorkBuffer) (cs : List Call) (s : WorkBuffer) (ch : Nat),
      run_calls L cs (reset s0) = some s → put_char_drops L s ch ≤ 1) ∧
    (∀ (s : WorkBuffer) (ch : Nat), ∃ s1, put_char L s ch = some s1) ∧
    (∀ s : WorkBuffer, s.in_buf ≠ [] →
      (∀ s1, decode_iter L s = Iter.decoded s1 → s1.in_buf.length < s.in_buf.length) ∧
      (∀ s1, decode_iter L s = Iter.dropped s1 → s1.in_buf.length < s.in_buf.length)) :=
  ⟨fun s ch hc hlen hrej => put_char_resync L s ch hc hlen hrej,
   fun s0 cs s ch h => put_char_drops_le_one L s ch (in_buf_bound_reach L s0 cs s h),
   fun s ch => put_char_total L s ch,
   fun s h => decode_iter_shortens L s h⟩

/-- Witness for C6: with five bytes `e3` pending in the UTF-8 locale, a sixth
`e3` fills the buffer; the front byte is erased and the other five stay. -/
theorem C6_resynchronisation_witness :
    put_char utf8 stuck5 0xE3 = some stuck5 ∧ put_char_drops utf8 stuck5 0xE3 = 1 := by
  have h := (C6_resynchronisation utf8).1 stuck5 0xE3 (by decide) (by decide) (by decide)
  refine ⟨h.1.trans ?_, h.2⟩
  decide

/-- Claim C7 (pending-buffer bound).  With `MB_CUR_MAX >= 1`, in every state
reached from a `reset` by `put_char`, `delete_char`, `clear_line`, `put_enter`
and `reset` calls (which all return), `in_buf` holds fewer than `MB_CUR_MAX`
bytes; and `in_buf` is empty after every `put_enter`, `clear_line` and
`reset`.  Nothing is assumed of the decoder. -/
theorem C7_pending_buffer_bound (L : Locale) (hmax : 1 ≤ L.MB_CUR_MAX) :
    (∀ (s0 : WorkBuffer) (cs : List Call),
      ∃ s, run_calls L cs (reset s0) = some s ∧ s.in_buf.length < L.MB_CUR_MAX) ∧
    (∀ s : WorkBuffer,
      (put_enter s).in_buf = [] ∧ (clear_line s).in_buf = [] ∧ (reset s).in_buf = []) := by
  constructor
  · intro s0 cs
    obtain ⟨s, hs⟩ := run_calls_total L cs (reset s0)
    have := in_buf_bound_reach L s0 cs s hs
    exact ⟨s, hs, by omega⟩
  · intro s
    exact ⟨rfl, rfl, rfl⟩

/-- Witness for C7: a session in the UTF-8 locale that ends with one lead
byte pending. -/
theorem C7_pending_buffer_bound_witness :
    ∃ s, run_calls utf8 sample_calls (reset fresh) = some s ∧
      s.in_buf.length < utf8.MB_CUR_MAX :=
  (C7_pending_buffer_bound utf8 (by decide)).1 fresh sample_calls

theorem digitChar_toNat (k : Nat) (hk : k < 10) : (Nat.digitChar k).toNat = 48 + k := by
  interval_cases k <;> rfl

theorem read_dec_append (ds : List Nat) (d : Nat) :
    read_dec (ds ++ [d]) = 10 * read_dec ds + (d - 48) := by
  simp [read_dec, List.foldl_append]

/-- The digits that `Nat.toDigitsCore 10` puts in front of its accumulator,
given enough fuel, are the decimal numeral of `n`. -/
theorem toDigitsCore_decimal :
    ∀ (fuel n : Nat) (acc : List Char), n < fuel →
      ∃ ds : List Nat, (Nat.toDigitsCore 10 fuel n acc).map Char.toNat
            = ds ++ acc.map Char.toNat ∧
        ds ≠ [] ∧ (∀ d ∈ ds, 48 ≤ d ∧ d ≤ 57) ∧ read_dec ds = n ∧
        (ds.head? = some 48 → ds = [48]) := by
  intro fuel
  induction fuel with
  | zero => intro n acc h; omega
  | succ f ih =>
    intro n acc hn
    have hd : (Nat.digitChar (n % 10)).toNat = 48 + n % 10 :=
      digitChar_toNat (n % 10) (Nat.mod_lt _ (by decide))
    by_cases h0 : n / 10 = 0
    · refine ⟨[48 + n % 10], ?_, by simp, ?_, ?_, ?_⟩
      · simp [Nat.toDigitsCore, h0, hd]
      · intro d hmem
        simp only [List.mem_singleton] at hmem
        omega
      · simp only [read_dec, List.foldl_cons, List.foldl_nil]
        omega
      · intro hh
        simpa using hh
    · obtain ⟨ds, h1, h2, h3, h4, h5⟩ :=
        ih (n / 10) (Nat.digitChar (n % 10) :: acc) (by omega)
      refine ⟨ds ++ [48 + n % 10], ?_, by simp, ?_, ?_, ?_⟩
      · simp [Nat.toDigitsCore, h0, h1, hd]
      · intro d hmem
        rcases List.mem_append.mp hmem with hm | hm
        · exact h3 d hm
        · simp only [List.mem_singleton] at hm
          omega
      · rw [read_dec_append, h4]
        omega
      · intro hh
        exfalso
        have hhead : ds.head? = some 48 := by
          cases ds with
          | nil => exact absurd rfl h2
          | cons x xs => simpa using hh
        have := h5 hhead
        rw [this] at h4
        simp [read_dec] at h4
        omega

theorem toDigits_is_nat_decimal (m : Nat) :
    is_nat_decimal ((Nat.toDigits 10 m).map Char.toNat) m = true := by
  obtain ⟨ds, h1, h2, h3, h4, h5⟩ := toDigitsCore_decimal (m + 1) m [] (by omega)
  have hds : (Nat.toDigits 10 m).map Char.toNat = ds := by
    simpa [Nat.toDigits] using h1
  rw [hds]
  have hall : ds.all (fun d => decide (48 ≤ d) && decide (d ≤ 57)) = true := by
    rw [List.all_eq_true]
    intro d hd
    simp [h3 d hd]
  have hne : ds.isEmpty = false := by
    cases ds with
    | nil => exact absurd rfl h2
    | cons x xs => rfl
  have hhead : (ds.head? != some 48 || ds == [48]) = true := by
    by_cases hh : ds.head? = some 48
    · simp [h5 hh]
    · simp [hh]
  simp only [is_nat_decimal, hne, hall, hhead, h4, Bool.not_false, Bool.and_self, beq_self_eq_true]

/-- What `fmt_dec` prints is the decimal numeral of its argument. -/
theorem fmt_dec_is_decimal (n : Int) : is_decimal (fmt_dec n) n = true := by
  unfold is_decimal fmt_dec
  split
  · exact toDigits_is_nat_decimal _
  · exact toDigits_is_nat_decimal _

/-- Counterexample to C8 as stated.  With a glyph on the line and
`input_count` at 2147483647, `put_enter` does not add one: the counter wraps
to -2147483648 and the prompt reads `input.-2147483648> `. -/
theorem C8_counterexample :
    at_int_max.chars ≠ [] ∧ at_int_max.input_count = 2147483647 ∧
      (put_enter at_int_max).input_count = -2147483648 ∧
      (put_enter at_int_max).input_count ≠ at_int_max.input_count + 1 ∧
      (put_enter at_int_max).prompt = bytes "input.-2147483648> " := by
  decide

/-- Claim C8, amended (`put_enter` and the input counter).  For every state,
`put_enter` leaves `input_count` as it is when `chars` is empty (whatever
`in_buf` holds), and adds exactly one when `chars` is non-empty and
`input_count` is an `int` below 2147483647.  Either way `chars`, `widths` and
`in_buf` end up empty, `prompt` is `input.` followed by the decimal numeral of
the new `input_count` followed by `> `, `width` and `prompt_width` are both the
length of that prompt, and the output received a newline and then the
prompt. -/
theorem C8_put_enter (s : WorkBuffer) :
    (s.chars = [] → (put_enter s).input_count = s.input_count) ∧
      (s.chars ≠ [] → -2147483648 ≤ s.input_count → s.input_count < 2147483647 →
        (put_enter s).input_count = s.input_count + 1) ∧
      (put_enter s).chars = [] ∧ (put_enter s).widths = [] ∧ (put_enter s).in_buf = [] ∧
      (∃ ds : List Nat,
        (put_enter s).prompt = bytes "input." ++ ds ++ bytes "> " ∧
        is_decimal ds (put_enter s).input_count = true) ∧
      (put_enter s).width = (put_enter s).prompt_width ∧
      (put_enter s).prompt_width = ((put_enter s).prompt.length : Int) ∧
      (put_enter s).term.out = s.term.out ++ [10] ++ (put_enter s).prompt := by
  refine ⟨?_, ?_, ?_, ?_, ?_, ⟨fmt_dec (put_enter s).input_count, ?_,
    fmt_dec_is_decimal _⟩, ?_, ?_, ?_⟩
  · intro h
    simp [put_enter, h, reset, clear_line]
  · intro h hlo hhi
    have hw : wrap_int (s.input_count + 1) = s.input_count + 1 := by
      unfold wrap_int
      omega
    simp [put_enter, h, reset, clear_line, hw]
  all_goals
    unfold put_enter
    by_cases h : s.chars = [] <;>
      simp [h, reset, clear_line, Terminal.put_text]

/-- Witness for C8: Enter on a line with one glyph and the counter at 9; the
counter becomes 10 and the prompt `input.10> `. -/
theorem C8_put_enter_witness :
    (put_enter at_nine).input_count = at_nine.input_count + 1 ∧
      (put_enter at_nine).prompt = bytes "input.10> " ∧
      (put_enter at_nine).width = 10 :=
  ⟨(C8_put_enter at_nine).2.1 (by decide) (by decide) (by decide), by decide, by decide⟩

/-- Claim C9 (interrupt dispatch).  For every session state, whatever `in_buf`
holds, `on_char` on byte 3 or byte 4 writes exactly one newline byte to the
output, sets `loop_cont` to false and returns true, and the line editor is not
called: `chars`, `widths`, `width`, `in_buf`, `input_count` (and every other
field but the output) are as before.  A `loop` that reads this byte while
running ends with status true, whatever input follows. -/
theorem C9_interrupt_dispatch (L : Locale) (tc : Termcap) (sys : Sys) (a : App) (ch : Nat)
    (hch : ch = 3 ∨ ch = 4) :
    App.on_char L tc sys a ch
        = some (true,
            { a with
              loop_cont := false
              wkbuf := { a.wkbuf with
                term := { a.wkbuf.term with out := a.wkbuf.term.out ++ [10] } } }) ∧
      (∀ (ok : Bool) (a1 : App), App.on_char L tc sys a ch = some (ok, a1) →
        ok = true ∧ a1.loop_cont = false ∧
        a1.wkbuf.term.out = a.wkbuf.term.out ++ [10] ∧
        a1.wkbuf.chars = a.wkbuf.chars ∧ a1.wkbuf.widths = a.wkbuf.widths ∧
        a1.wkbuf.width = a.wkbuf.width ∧ a1.wkbuf.in_buf = a.wkbuf.in_buf ∧
        a1.wkbuf.input_count = a.wkbuf.input_count) ∧
      (∀ rest : List Event, a.loop_cont = true →
        ∃ a1, App.loop L tc sys (Event.byte ch :: rest) a = some (true, a1) ∧
          a1.loop_cont = false ∧ a1.wkbuf.term.out = a.wkbuf.term.out ++ [10]) := by
  have h1 : App.on_char L tc sys a ch
        = some (true,
            { a with
              loop_cont := false
              wkbuf := { a.wkbuf with
                term := { a.wkbuf.term with out := a.wkbuf.term.out ++ [10] } } }) := by
    unfold App.on_char
    simp only [hch, if_true]
    rfl
  refine ⟨h1, ?_, ?_⟩
  · intro ok a1 h
    rw [h1] at h
    simp only [Option.some.injEq, Prod.mk.injEq] at h
    obtain ⟨hok, ha⟩ := h
    subst ha
    exact ⟨hok.symm, rfl, rfl, rfl, rfl, rfl, rfl, rfl⟩
  · intro rest hrun
    refine ⟨{ a with
              loop_cont := false
              wkbuf := { a.wkbuf with
                term := { a.wkbuf.term with out := a.wkbuf.term.out ++ [10] } } },
      ?_, rfl, rfl⟩
    rw [App.loop.eq_def]
    simp only [hrun, h1]
    rw [App.loop.eq_def]
    simp

/-- Witness for C9: byte 3 arriving while the lead byte `e3` is pending. -/
theorem C9_interrupt_dispatch_witness :
    App.on_char utf8 plain_termcap { tcsetattr_ok := true }
        { fresh_app with wkbuf := stuck5 } 3
      = some (true,
          { fresh_app with
            loop_cont := false
            wkbuf := { stuck5 with
              term := { stuck5.term with out := stuck5.term.out ++ [10] } } }) :=
  (C9_interrupt_dispatch utf8 plain_termcap { tcsetattr_ok := true }
    { fresh_app with wkbuf := stuck5 } 3 (Or.inl rfl)).1

/-- Claim C10 (the line never reaches the right edge).  If `prompt_width` is
less than `screen_columns` when the line is cleared or reset, then after any
sequence of `put_char` and `delete_char` calls, under any locale (so any
display-width function, zero and negative widths included), the calls have all
returned and `width` is still less than `screen_columns`. -/
theorem C10_right_edge (L : Locale) (s0 : WorkBuffer) (cs : List Call)
    (hcs : ∀ c ∈ cs, c.is_edit = true) :
    (s0.prompt_width < s0.term.scr_columns →
      ∃ s, run_calls L cs (clear_line s0) = some s ∧ s.width < s.term.scr_columns ∧
        s.term.scr_columns = s0.term.scr_columns) ∧
    ((reset s0).prompt_width < s0.term.scr_columns →
      ∃ s, run_calls L cs (reset s0) = some s ∧ s.width < s.term.scr_columns ∧
        s.term.scr_columns = s0.term.scr_columns) := by
  constructor
  · intro h
    exact edge_after_edits L cs hcs (clear_line s0) (edgeInv_clear_line s0 h)
  · intro h
    exact edge_after_edits L cs hcs (reset s0)
      (edgeInv_clear_line
        { s0 with
          prompt := bytes "input." ++ fmt_dec s0.input_count ++ bytes "> "
          prompt_width :=
            ((bytes "input." ++ fmt_dec s0.input_count ++ bytes "> ").length : Int) } h)

/-- Witness for C10: a short editing session on the fresh 80-column line. -/
theorem C10_right_edge_witness :
    ∃ s, run_calls utf8 sample_edits (reset fresh) = some s ∧ s.width < s.term.scr_columns ∧
      s.term.scr_columns = fresh.term.scr_columns :=
  (C10_right_edge utf8 fresh sample_edits (by decide)).2 (by decide)

end TtyView
